import Mathlib

/-!
Verification development for the rights backend in
`radicale/rights/from_file.py` (the `Rights.authorized` method).

Strings are embedded as `List Char`.  The Python `re` module is embedded
by a regex abstract syntax (`Regex`), a recursive-descent parser
(`parseRx` / `compileRx`) covering the fragment of Python regex syntax
used by rights files (literals, escapes, `.`, `|`, `*`, `+`, `?` and
capturing groups), and a prioritized backtracking matcher
(`reMatchesR` / `reMatches` / `fullmatchCaps`) that returns match
alternatives in Python's leftmost-greedy order together with the
captured group texts.  `str.format` positional substitution is embedded
by `strFormat`, `re.escape` by `re_escape`, and ConfigParser value
lookup with `%(name)s` basic interpolation by `optionLookup` / `interpGo`
/ `cfgGet`.  The `authorized` method itself is embedded by `evalSection`
(the per-section try block), `authorizedGo` (the section loop) and
`authorized` (including path normalization and escaping of user and
path).
-/

/-- Abstract syntax of the supported Python regular-expression fragment.
`group n r` is a capturing group with 0-based index `n` (Python group
number `n + 1`). -/
inductive Regex where
  | eps
  | char (c : Char)
  | any
  | alt (r1 r2 : Regex)
  | cat (r1 r2 : Regex)
  | star (r : Regex)
  | group (n : Nat) (r : Regex)
deriving Repr, DecidableEq

/-- Captured group texts: entry `n` is `some t` when group `n + 1`
(in Python numbering) matched the text `t`, and `none` when the group
did not participate in the match. -/
abbrev Caps := List (Option (List Char))

/-- One section of the rights file, as loaded by ConfigParser: the
section name and the raw (uninterpolated) values of the three keys the
source reads, each possibly absent. -/
structure RuleSection where
  name : List Char
  user : Option (List Char)
  collection : Option (List Char)
  permissions : Option (List Char)
deriving Repr, DecidableEq

/-- Exceptions that can be raised while evaluating one section:
ConfigParser `NoOptionError` (with section and key name), interpolation
errors, `re.error` from compiling a pattern, `str.format` errors
(`IndexError` / `ValueError` / `KeyError`), and the `TypeError` raised
by `re.escape(None)` on a non-participating group. -/
inductive EvalExn where
  | noOption (section1 key : List Char)
  | badInterp
  | missingInterp (name : List Char)
  | interpDepth
  | reError
  | formatError
  | typeError
deriving Repr, DecidableEq

/-- Errors propagated out of `authorized`: the `RuntimeError` raised by
the `except` clause (naming the section, wrapping the underlying
exception), or an exception escaping uncaught from the
`rights_config.get(section, "permissions")` call, which sits outside
the try block. -/
inductive AuthErr where
  | sectionError (section1 : List Char) (exn : EvalExn)
  | uncaughtError (exn : EvalExn)
deriving Repr, DecidableEq

/-- The characters given a backslash prefix by Python `re.escape`. -/
def rxSpecial : List Char :=
  ['(', ')', '[', ']', '\x7b', '\x7d', '?', '*', '+', '-', '|', '^',
   '$', '\\', '.', '&', '~', '#', ' ', '\t', '\n', '\r', '\x0b', '\x0c']

/-- Python `re.escape`: prefix every special character with a backslash. -/
def re_escape : List Char → List Char
  | [] => []
  | c :: rest => (if c ∈ rxSpecial then ['\\', c] else [c]) ++ re_escape rest

/-- Modelled from the spec: the path normalizer collaborator
(`pathutils.strip_path`, not part of the sources under verification)
strips leading and trailing path separators and performs no other
transformation. -/
def strip_path (p : List Char) : List Char :=
  ((p.dropWhile (fun c => c = '/')).reverse.dropWhile (fun c => c = '/')).reverse

/-- Modelled from the spec: `rights.intersect_permissions` (not part of
the sources under verification) returns the set intersection of the
requested permission symbols with the granted permission string;
duplicates collapse. -/
def intersect_permissions (requested granted : List Char) : List Char :=
  (requested.filter (fun c => c ∈ granted)).dedup

/-- The regex that matches exactly one literal string. -/
def litCat : List Char → Regex
  | [] => .eps
  | c :: rest => .cat (.char c) (litCat rest)

/-- Characters that cannot stand bare as a regex atom in the supported
fragment. -/
def rxMeta : List Char :=
  ['*', '+', '?', '\x7b', '\x7d', '[', ']', '|', '(', ')', '^', '$']

/-- Whether the input continues with a quantifier character (a second
quantifier right after a quantified atom is a `re.error`). -/
def startsQuant : List Char → Bool
  | c :: _ => c = '*' || c = '+' || c = '?'
  | [] => false

/-- Apply an optional quantifier following an atom.  `+` and `?` are
desugared to `cat`/`star` and `alt`/`eps`. -/
def applyQuant (a : Regex) (s : List Char) : Except Unit (Regex × List Char) :=
  match s with
  | [] => .ok (a, [])
  | c :: rest =>
    if c = '*' then if startsQuant rest then .error () else .ok (.star a, rest)
    else if c = '+' then if startsQuant rest then .error () else .ok (.cat a (.star a), rest)
    else if c = '?' then if startsQuant rest then .error () else .ok (.alt a .eps, rest)
    else .ok (a, c :: rest)

/-- Nonterminal selector for the recursive-descent regex parser. -/
inductive PMode where
  | palt
  | pcat
  | patom
deriving Repr, DecidableEq

/-- Recursive-descent parser for the supported Python regex fragment.
Returns the parsed expression, the unconsumed input, and the updated
count of capturing groups.  Group numbers are assigned in order of the
opening parentheses, as Python does. -/
def parseRx : Nat → PMode → List Char → Nat → Except Unit (Regex × List Char × Nat)
  | 0, _, _, _ => .error ()
  | fuel + 1, .palt, s, g =>
    match parseRx fuel .pcat s g with
    | .error e => .error e
    | .ok (c, s1, g1) =>
      match s1 with
      | '|' :: rest =>
        match parseRx fuel .palt rest g1 with
        | .error e => .error e
        | .ok (r, s2, g2) => .ok (.alt c r, s2, g2)
      | _ => .ok (c, s1, g1)
  | fuel + 1, .pcat, s, g =>
    match s with
    | [] => .ok (.eps, [], g)
    | c :: rest =>
      if c = ')' then .ok (.eps, c :: rest, g)
      else if c = '|' then .ok (.eps, c :: rest, g)
      else
        match parseRx fuel .patom (c :: rest) g with
        | .error e => .error e
        | .ok (a, s1, g1) =>
          match applyQuant a s1 with
          | .error e => .error e
          | .ok (a2, s2) =>
            match parseRx fuel .pcat s2 g1 with
            | .error e => .error e
            | .ok (rest2, s3, g2) => .ok (.cat a2 rest2, s3, g2)
  | fuel + 1, .patom, s, g =>
    match s with
    | [] => .error ()
    | c :: rest =>
      if c = '(' then
        match rest with
        | '?' :: _ => .error ()
        | _ =>
          match parseRx fuel .palt rest (g + 1) with
          | .error e => .error e
          | .ok (r, s1, g1) =>
            match s1 with
            | ')' :: s2 => .ok (.group g r, s2, g1)
            | _ => .error ()
      else if c = '\\' then
        match rest with
        | [] => .error ()
        | c2 :: rest2 => if c2.isAlphanum then .error () else .ok (.char c2, rest2, g)
      else if c = '.' then .ok (.any, rest, g)
      else if c ∈ rxMeta then .error () else .ok (.char c, rest, g)

/-- Python `re.compile` on the supported fragment: parse the whole
pattern, failing on leftover input (for example an unbalanced
parenthesis).  Returns the expression and its number of capturing
groups. -/
def compileRx (s : List Char) : Except Unit (Regex × Nat) :=
  match parseRx (4 * s.length + 8) .palt s 0 with
  | .ok (r, [], g) => .ok (r, g)
  | .ok (_, _ :: _, _) => .error ()
  | .error _ => .error ()

/-- One backtracking step of the matcher: all ways for `r` to match a
prefix of `s`, in Python's leftmost-greedy priority order, each giving
the remaining suffix and the updated captures.  `deeper` performs the
continuation of a star on a strictly shorter suffix (tied off by fuel
in `reMatches`). -/
def reMatchesR (deeper : Regex → List Char → Caps → List (List Char × Caps)) :
    Regex → List Char → Caps → List (List Char × Caps)
  | .eps, s, caps => [(s, caps)]
  | .char c, s, caps =>
    match s with
    | [] => []
    | d :: rest => if d = c then [(rest, caps)] else []
  | .any, s, caps =>
    match s with
    | [] => []
    | _ :: rest => [(rest, caps)]
  | .alt r1 r2, s, caps => reMatchesR deeper r1 s caps ++ reMatchesR deeper r2 s caps
  | .cat r1 r2, s, caps =>
    (reMatchesR deeper r1 s caps).flatMap (fun p => reMatchesR deeper r2 p.1 p.2)
  | .star r, s, caps =>
    ((reMatchesR deeper r s caps).filter (fun p => p.1.length < s.length)).flatMap
      (fun p => deeper (.star r) p.1 p.2) ++ [(s, caps)]
  | .group n r, s, caps =>
    (reMatchesR deeper r s caps).map
      (fun p => (p.1, p.2.set n (some (s.take (s.length - p.1.length)))))

/-- The backtracking matcher with fuel bounding the number of star
iterations; `s.length + 1` fuel always suffices since every star
iteration consumes at least one character. -/
def reMatches : Nat → Regex → List Char → Caps → List (List Char × Caps)
  | 0, _, _, _ => []
  | fuel + 1, r, s, caps => reMatchesR (reMatches fuel) r s caps

/-- Python `re.fullmatch`: the captures of the first (in backtracking
priority order) match alternative that consumes the whole input, if
any.  `ng` is the number of capturing groups of `r`. -/
def fullmatchCaps (r : Regex) (ng : Nat) (s : List Char) : Option Caps :=
  ((reMatches (s.length + 1) r s (List.replicate ng none)).find?
    (fun p => p.1.isEmpty)).map (fun p => p.2)

/-- Whether the string pattern `pat` compiles and fully matches `s`. -/
def re_fullmatchB (pat s : List Char) : Bool :=
  match compileRx pat with
  | .error _ => false
  | .ok (r, ng) => (fullmatchCaps r ng s).isSome

/-- Numeric value of a digit string. -/
def digitsToNat (s : List Char) : Nat :=
  s.foldl (fun n c => n * 10 + (c.toNat - 48)) 0

/-- Python `str.format` scanning loop over the template.  `args` are the
positional arguments, `i` the auto-numbering counter, `a` / `m` whether
automatic or manual field numbering has been used (mixing them is a
`ValueError`).  Doubled braces denote literal braces; a field must be
empty (automatic) or all digits (manual index); an index outside `args`
is an `IndexError`; any other field is an error. -/
def formatGo (args : List (List Char)) :
    Nat → List Char → Nat → Bool → Bool → Except EvalExn (List Char)
  | 0, _, _, _, _ => .error .formatError
  | fuel + 1, s, i, a, m =>
    match s with
    | [] => .ok []
    | '\x7b' :: '\x7b' :: rest =>
      (fun t => '\x7b' :: t) <$> formatGo args fuel rest i a m
    | '\x7d' :: '\x7d' :: rest =>
      (fun t => '\x7d' :: t) <$> formatGo args fuel rest i a m
    | '\x7d' :: _ => .error .formatError
    | '\x7b' :: rest =>
      match rest.dropWhile (fun c => c ≠ '\x7d') with
      | '\x7d' :: rest2 =>
        let field := rest.takeWhile (fun c => c ≠ '\x7d')
        if field = [] then
          if m then .error .formatError
          else
            match args.get? i with
            | none => .error .formatError
            | some v => (fun t => v ++ t) <$> formatGo args fuel rest2 (i + 1) true m
        else if field.all Char.isDigit then
          if a then .error .formatError
          else
            match args.get? (digitsToNat field) with
            | none => .error .formatError
            | some v => (fun t => v ++ t) <$> formatGo args fuel rest2 i a true
        else .error .formatError
      | _ => .error .formatError
    | c :: rest => (fun t => c :: t) <$> formatGo args fuel rest i a m

/-- Python `str.format` with positional arguments. -/
def strFormat (s : List Char) (args : List (List Char)) : Except EvalExn (List Char) :=
  formatGo args (s.length + 1) s 0 false false

/-- ConfigParser `BasicInterpolation` scanning loop over one value.
`lk` looks up interpolation variables (section options shadowing the
constructor defaults), `dive` interpolates a substituted value that
itself contains a percent (one recursion level deeper), and the fuel
bounds the scan (`s.length + 1` always suffices).  `%%` is a literal
percent, `%(name)s` substitutes the variable, and any other use of `%`
is an `InterpolationSyntaxError`. -/
def interpScan (lk : List Char → Option (List Char))
    (dive : List Char → Except EvalExn (List Char)) :
    Nat → List Char → Except EvalExn (List Char)
  | 0, _ => .error .badInterp
  | fuel + 1, s =>
    match s with
    | [] => .ok []
    | c :: rest =>
      if c = '%' then
        match rest with
        | '%' :: rest2 => (fun t => '%' :: t) <$> interpScan lk dive fuel rest2
        | '(' :: rest2 =>
          match rest2.dropWhile (fun c2 => c2 ≠ ')') with
          | ')' :: 's' :: rest3 =>
            let name := (rest2.takeWhile (fun c2 => c2 ≠ ')')).map Char.toLower
            if name = [] then .error .badInterp
            else
              match lk name with
              | none => .error (.missingInterp name)
              | some v =>
                match (if '%' ∈ v then dive v else .ok v) with
                | .error e => .error e
                | .ok piece =>
                  match interpScan lk dive fuel rest3 with
                  | .error e => .error e
                  | .ok t => .ok (piece ++ t)
          | _ => .error .badInterp
        | _ => .error .badInterp
      else (fun t => c :: t) <$> interpScan lk dive fuel rest

/-- ConfigParser `BasicInterpolation` of a value at a remaining
recursion depth `d`; exceeding the maximum interpolation depth is an
`InterpolationDepthError`. -/
def interpGo (lk : List Char → Option (List Char)) : Nat → List Char → Except EvalExn (List Char)
  | 0, _ => .error .interpDepth
  | d + 1, v => interpScan lk (interpGo lk d) (v.length + 1) v

/-- The interpolation variable map: the section's own raw options
shadow the defaults `login` (regex-escaped identity) and `path`
(regex-escaped normalized path) passed to the ConfigParser constructor. -/
def optionLookup (sec : RuleSection) (ue pe : List Char) (key : List Char) :
    Option (List Char) :=
  if key = "user".toList then sec.user
  else if key = "collection".toList then sec.collection
  else if key = "permissions".toList then sec.permissions
  else if key = "login".toList then some ue
  else if key = "path".toList then some pe
  else none

/-- ConfigParser `get(section, key)`: raw lookup (falling back to the
defaults), then basic interpolation of the value; a missing key raises
`NoOptionError` naming the section and the key. -/
def cfgGet (sec : RuleSection) (ue pe : List Char) (key : List Char) :
    Except EvalExn (List Char) :=
  match optionLookup sec ue pe key with
  | none => .error (.noOption sec.name key)
  | some v => interpGo (optionLookup sec ue pe) 10 v

/-- `map(re.escape, user_match.groups())`: escape every captured group
text; a non-participating group is `None` and makes `re.escape` raise
`TypeError`. -/
def escapeGroups : Caps → Except EvalExn (List (List Char))
  | [] => .ok []
  | none :: _ => .error .typeError
  | some t :: rest =>
    match escapeGroups rest with
    | .error e => .error e
    | .ok r => .ok (re_escape t :: r)

/-- The collection half of the source's matching expression: format the
collection pattern with the escaped capture groups, compile the result
and full-match it against the normalized path. -/
def evalCollection (sane cp : List Char) (caps : Caps) : Except EvalExn Bool :=
  match escapeGroups caps with
  | .error e => .error e
  | .ok esc =>
    match strFormat cp esc with
    | .error e => .error e
    | .ok fp =>
      match compileRx fp with
      | .error _ => .error .reError
      | .ok (r2, ng2) => .ok (fullmatchCaps r2 ng2 sane).isSome

/-- The body of the per-section try block in `authorized`: fetch the
`user` and `collection` patterns, full-match the user pattern against
the identity, and (only when the identity matched, because of the
short-circuiting `and`) evaluate the collection pattern.  Returns
whether the section matched, or the first exception raised. -/
def evalSection (user sane ue pe : List Char) (sec : RuleSection) : Except EvalExn Bool :=
  match cfgGet sec ue pe ("user".toList) with
  | .error e => .error e
  | .ok up =>
    match cfgGet sec ue pe ("collection".toList) with
    | .error e => .error e
    | .ok cp =>
      match compileRx up with
      | .error _ => .error .reError
      | .ok (r, ng) =>
        match fullmatchCaps r ng user with
        | none => .ok false
        | some caps => evalCollection sane cp caps

/-- The section loop of `authorized`: any exception from the try block
becomes a `RuntimeError` naming the section; on the first matching
section the `permissions` value is fetched outside the try block (its
exceptions propagate uncaught) and intersected with the requested
permissions; if no section matches the empty permission string is
returned. -/
def authorizedGo (user sane ue pe perms : List Char) :
    List RuleSection → Except AuthErr (List Char)
  | [] => .ok []
  | sec :: rest =>
    match evalSection user sane ue pe sec with
    | .error e => .error (.sectionError sec.name e)
    | .ok true =>
      match cfgGet sec ue pe ("permissions".toList) with
      | .error e => .error (.uncaughtError e)
      | .ok p => .ok (intersect_permissions perms p)
    | .ok false => authorizedGo user sane ue pe perms rest

/-- `Rights.authorized(user, path, permissions)` over a loaded list of
sections: normalize the path, escape the identity and the normalized
path for the `login` / `path` interpolation defaults, and run the
section loop. -/
def authorized (user path perms : List Char) (sections : List RuleSection) :
    Except AuthErr (List Char) :=
  authorizedGo user (strip_path path) (re_escape user) (re_escape (strip_path path))
    perms sections

/-- Whether one section matches a request, with the escaped identity
and path derived from the request as in `authorized`. -/
def ruleMatches (user path : List Char) (sec : RuleSection) : Except EvalExn Bool :=
  evalSection user (strip_path path) (re_escape user) (re_escape (strip_path path)) sec

/-- Whole-string membership of a string in the language of a regex
(standard semantics; captures are irrelevant to membership). -/
inductive RMatch : Regex → List Char → Prop
  | eps : RMatch .eps []
  | char (c : Char) : RMatch (.char c) [c]
  | any (c : Char) : RMatch .any [c]
  | altL {r1 r2 : Regex} {s : List Char} : RMatch r1 s → RMatch (.alt r1 r2) s
  | altR {r1 r2 : Regex} {s : List Char} : RMatch r2 s → RMatch (.alt r1 r2) s
  | cat {r1 r2 : Regex} {s1 s2 : List Char} :
      RMatch r1 s1 → RMatch r2 s2 → RMatch (.cat r1 r2) (s1 ++ s2)
  | starNil {r : Regex} : RMatch (.star r) []
  | starCons {r : Regex} {s1 s2 : List Char} :
      RMatch r s1 → RMatch (.star r) s2 → RMatch (.star r) (s1 ++ s2)
  | group {n : Nat} {r : Regex} {s : List Char} : RMatch r s → RMatch (.group n r) s

/-- Sections that evaluate cleanly to a non-match are skipped by the
section loop. -/
theorem authorizedGo_skip (user sane ue pe perms : List Char) (pre rest : List RuleSection)
    (h : ∀ s ∈ pre, evalSection user sane ue pe s = .ok false) :
    authorizedGo user sane ue pe perms (pre ++ rest) =
      authorizedGo user sane ue pe perms rest := by
  induction pre with
  | nil => rfl
  | cons sec pre ih =>
    have hsec := h sec (List.mem_cons_self _ _)
    simp only [List.cons_append, authorizedGo, hsec]
    exact ih (fun s hs => h s (List.mem_cons_of_mem _ hs))

/-- Escaping neither removes nor introduces percent characters. -/
theorem percent_mem_escape (u : List Char) : '%' ∈ re_escape u ↔ '%' ∈ u := by
  induction u with
  | nil => simp [re_escape]
  | cons c rest ih =>
    by_cases hc : c ∈ rxSpecial <;>
      simp [re_escape, hc, ih, List.mem_cons, List.mem_append]

/-- Interpolation scanning leaves a percent-free value unchanged. -/
theorem interpScan_no_percent (lk : List Char → Option (List Char))
    (dive : List Char → Except EvalExn (List Char)) (s : List Char) :
    ∀ fuel, '%' ∉ s → s.length < fuel → interpScan lk dive fuel s = .ok s := by
  induction s with
  | nil =>
    intro fuel _ hf
    cases fuel with
    | zero => omega
    | succ f => rfl
  | cons c rest ih =>
    intro fuel h hf
    cases fuel with
    | zero => omega
    | succ f =>
      have hc : ¬ c = '%' := fun hc => h (hc ▸ List.mem_cons_self _ _)
      have hr : '%' ∉ rest := fun hm => h (List.mem_cons_of_mem _ hm)
      simp only [interpScan, if_neg hc, ih f hr (by simpa using Nat.lt_of_succ_lt_succ hf),
        Except.map_ok]

/-- Basic interpolation leaves a percent-free value unchanged. -/
theorem interpGo_no_percent (lk : List Char → Option (List Char)) (d : Nat)
    (v : List Char) (h : '%' ∉ v) : interpGo lk (d + 1) v = .ok v :=
  interpScan_no_percent lk (interpGo lk d) v (v.length + 1) h (Nat.lt_succ_self _)

/-- Membership in the modelled permission intersection. -/
theorem mem_intersect_permissions (a b : List Char) (c : Char) :
    c ∈ intersect_permissions a b ↔ c ∈ a ∧ c ∈ b := by
  simp [intersect_permissions, List.mem_dedup, List.mem_filter]

/-- The matcher on a literal-string regex: exactly one alternative when
the literal is a prefix of the input, none otherwise. -/
theorem reMatchesR_lit (deeper : Regex → List Char → Caps → List (List Char × Caps))
    (u : List Char) : ∀ (s : List Char) (caps : Caps),
    reMatchesR deeper (litCat u) s caps =
      if u.isPrefixOf s then [(s.drop u.length, caps)] else [] := by
  induction u with
  | nil => intro s caps; simp [litCat, reMatchesR, List.isPrefixOf]
  | cons c u ih =>
    intro s caps
    cases s with
    | nil => simp [litCat, reMatchesR, List.isPrefixOf]
    | cons d s2 =>
      simp only [litCat, reMatchesR]
      by_cases hdc : d = c
      · subst hdc
        simp [List.isPrefixOf, ih, List.drop_succ_cons]
      · have : ¬ (c == d) = true := by simp [beq_iff_eq]; exact fun h => hdc h.symm
        simp [List.isPrefixOf, hdc, this]

/-- A full match of a literal-string regex is exactly equality with the
literal. -/
theorem fullmatchCaps_lit (u s : List Char) (ng : Nat) :
    (fullmatchCaps (litCat u) ng s).isSome = true ↔ s = u := by
  simp only [fullmatchCaps, reMatches, reMatchesR_lit]
  by_cases hp : u.isPrefixOf s
  · rw [if_pos hp]
    have hpre : u <+: s := List.isPrefixOf_iff_prefix.mp hp
    by_cases hd : (s.drop u.length).isEmpty = true
    · rw [@List.find?_cons_of_pos _ (fun q => q.1.isEmpty)
        (s.drop u.length, List.replicate ng none) [] hd]
      have hlen : s.length ≤ u.length := List.drop_eq_nil_iff.mp (List.isEmpty_iff.mp hd)
      have hsu : s = u :=
        (hpre.eq_of_length (Nat.le_antisymm hpre.length_le hlen)).symm
      simp [hsu]
    · rw [@List.find?_cons_of_neg _ (fun q => q.1.isEmpty)
        (s.drop u.length, List.replicate ng none) [] hd, List.find?_nil]
      refine iff_of_false (by simp) ?_
      intro hsu
      subst hsu
      simp at hd
  · rw [if_neg hp, List.find?_nil]
    refine iff_of_false (by simp) ?_
    intro hsu
    subst hsu
    exact hp (List.isPrefixOf_iff_prefix.mpr (List.prefix_refl _))

/-- No character escaped by `re.escape` is alphanumeric. -/
theorem special_not_alphanum : ∀ c ∈ rxSpecial, c.isAlphanum = false := by decide

/-- Every bare-meta character of the parser is escaped by `re.escape`. -/
theorem meta_subset_special : ∀ c ∈ rxMeta, c ∈ rxSpecial := by decide

/-- An escaped string never starts with a bare quantifier character. -/
theorem startsQuant_escape (u : List Char) : startsQuant (re_escape u) = false := by
  cases u with
  | nil => rfl
  | cons d u2 =>
    by_cases hd : d ∈ rxSpecial
    · simp [re_escape, hd, startsQuant]
    · have h1 : ¬ d = '*' := fun h => hd (by rw [h]; decide)
      have h2 : ¬ d = '+' := fun h => hd (by rw [h]; decide)
      have h3 : ¬ d = '?' := fun h => hd (by rw [h]; decide)
      simp [re_escape, hd, startsQuant, h1, h2, h3]

/-- No quantifier applies right after an atom when the rest of the
input is an escaped string. -/
theorem applyQuant_escape (a : Regex) (u : List Char) :
    applyQuant a (re_escape u) = .ok (a, re_escape u) := by
  cases u with
  | nil => rfl
  | cons d u2 =>
    by_cases hd : d ∈ rxSpecial
    · simp [re_escape, hd, applyQuant]
    · have h1 : ¬ d = '*' := fun h => hd (by rw [h]; decide)
      have h2 : ¬ d = '+' := fun h => hd (by rw [h]; decide)
      have h3 : ¬ d = '?' := fun h => hd (by rw [h]; decide)
      simp [re_escape, hd, applyQuant, h1, h2, h3]

/-- An escaped special character parses as one literal-character atom. -/
theorem parseRx_patom_escaped (f : Nat) (c : Char) (hc : c ∈ rxSpecial)
    (tail : List Char) (g : Nat) :
    parseRx (f + 1) .patom ('\\' :: c :: tail) g = .ok (.char c, tail, g) := by
  simp [parseRx, special_not_alphanum c hc]

/-- A character not special to `re.escape` parses as one
literal-character atom. -/
theorem parseRx_patom_plain (f : Nat) (c : Char) (hc : c ∉ rxSpecial)
    (tail : List Char) (g : Nat) :
    parseRx (f + 1) .patom (c :: tail) g = .ok (.char c, tail, g) := by
  have h1 : ¬ c = '(' := fun h => hc (by rw [h]; decide)
  have h2 : ¬ c = '\\' := fun h => hc (by rw [h]; decide)
  have h3 : ¬ c = '.' := fun h => hc (by rw [h]; decide)
  have h4 : ¬ c ∈ rxMeta := fun h => hc (meta_subset_special c h)
  simp [parseRx, h1, h2, h3, h4]

/-- The concatenation level of the parser maps an escaped string to the
literal-string regex, consuming all input and creating no groups. -/
theorem parseRx_pcat_escape (u : List Char) : ∀ (fuel g : Nat), u.length < fuel →
    parseRx fuel .pcat (re_escape u) g = .ok (litCat u, [], g) := by
  induction u with
  | nil =>
    intro fuel g hf
    cases fuel with
    | zero => omega
    | succ f => rfl
  | cons c u2 ih =>
    intro fuel g hf
    cases fuel with
    | zero => omega
    | succ f =>
      cases f with
      | zero => simp at hf
      | succ f2 =>
        have hf2 : u2.length < f2 + 1 := by simp at hf; omega
        have htail := ih (f2 + 1) g hf2
        have hstep : ∀ (d : Char) (tail : List Char),
            parseRx (f2 + 1 + 1) .pcat (d :: tail) g =
              (if d = ')' then .ok (.eps, d :: tail, g)
               else if d = '|' then .ok (.eps, d :: tail, g)
               else
                 match parseRx (f2 + 1) .patom (d :: tail) g with
                 | .error e => .error e
                 | .ok (a, s1, g1) =>
                   match applyQuant a s1 with
                   | .error e => .error e
                   | .ok (a2, s2) =>
                     match parseRx (f2 + 1) .pcat s2 g1 with
                     | .error e => .error e
                     | .ok (rest2, s3, g2) => .ok (.cat a2 rest2, s3, g2)) :=
          fun d tail => rfl
        by_cases hc : c ∈ rxSpecial
        · have hesc : re_escape (c :: u2) = '\\' :: c :: re_escape u2 := by
            simp [re_escape, hc]
          rw [hesc, hstep]
          have hb1 : ¬ ('\\' : Char) = ')' := by decide
          have hb2 : ¬ ('\\' : Char) = '|' := by decide
          rw [if_neg hb1, if_neg hb2, parseRx_patom_escaped f2 c hc]
          simp only [applyQuant_escape, htail, litCat]
        · have hesc : re_escape (c :: u2) = c :: re_escape u2 := by
            simp [re_escape, hc]
          rw [hesc, hstep]
          have h1 : ¬ c = ')' := fun h => hc (by rw [h]; decide)
          have h2 : ¬ c = '|' := fun h => hc (by rw [h]; decide)
          rw [if_neg h1, if_neg h2, parseRx_patom_plain f2 c hc]
          simp only [applyQuant_escape, htail, litCat]

/-- `re.escape` output length dominates the input length. -/
theorem length_le_length_escape (u : List Char) : u.length ≤ (re_escape u).length := by
  induction u with
  | nil => simp [re_escape]
  | cons c u2 ih =>
    by_cases hc : c ∈ rxSpecial <;> simp [re_escape, hc] <;> omega

/-- Compiling an escaped string yields the literal-string regex with no
capturing groups. -/
theorem compileRx_escape (u : List Char) : compileRx (re_escape u) = .ok (litCat u, 0) := by
  unfold compileRx
  have hlen : u.length < 4 * (re_escape u).length + 7 := by
    have := length_le_length_escape u
    omega
  have h8 : 4 * (re_escape u).length + 8 = (4 * (re_escape u).length + 7) + 1 := by omega
  rw [h8]
  have hstep : parseRx ((4 * (re_escape u).length + 7) + 1) .palt (re_escape u) 0 =
      (match parseRx (4 * (re_escape u).length + 7) .pcat (re_escape u) 0 with
       | .error e => .error e
       | .ok (c, s1, g1) =>
         match s1 with
         | '|' :: rest =>
           match parseRx (4 * (re_escape u).length + 7) .palt rest g1 with
           | .error e => .error e
           | .ok (r, s2, g2) => .ok (.alt c r, s2, g2)
         | _ => .ok (c, s1, g1)) := rfl
  rw [hstep, parseRx_pcat_escape u (4 * (re_escape u).length + 7) 0 hlen]

/-- A compiled escaped string fully matches exactly the original
string: the security-critical property of `re.escape`. -/
theorem re_fullmatchB_escape (u s : List Char) :
    re_fullmatchB (re_escape u) s = true ↔ s = u := by
  simp only [re_fullmatchB, compileRx_escape]
  exact fullmatchCaps_lit u s 0

/-- Every alternative produced by one matcher step consumes a prefix of
the input that the regex matches, provided the star continuation does. -/
theorem reMatchesR_sound
    (deeper : Regex → List Char → Caps → List (List Char × Caps))
    (hd : ∀ r s caps p, p ∈ deeper r s caps → ∃ pre, s = pre ++ p.1 ∧ RMatch r pre) :
    ∀ r s caps p, p ∈ reMatchesR deeper r s caps → ∃ pre, s = pre ++ p.1 ∧ RMatch r pre := by
  intro r
  induction r with
  | eps =>
    intro s caps p hp
    simp only [reMatchesR, List.mem_singleton] at hp
    exact ⟨[], by simp [hp], RMatch.eps⟩
  | char c =>
    intro s caps p hp
    cases s with
    | nil => simp [reMatchesR] at hp
    | cons d rest =>
      simp only [reMatchesR] at hp
      by_cases hdc : d = c
      · rw [if_pos hdc] at hp
        simp only [List.mem_singleton] at hp
        subst hdc
        exact ⟨[d], by simp [hp], RMatch.char d⟩
      · rw [if_neg hdc] at hp
        simp at hp
  | any =>
    intro s caps p hp
    cases s with
    | nil => simp [reMatchesR] at hp
    | cons d rest =>
      simp only [reMatchesR, List.mem_singleton] at hp
      exact ⟨[d], by simp [hp], RMatch.any d⟩
  | alt r1 r2 ih1 ih2 =>
    intro s caps p hp
    simp only [reMatchesR, List.mem_append] at hp
    rcases hp with hp | hp
    · obtain ⟨pre, hpre, hm⟩ := ih1 s caps p hp
      exact ⟨pre, hpre, RMatch.altL hm⟩
    · obtain ⟨pre, hpre, hm⟩ := ih2 s caps p hp
      exact ⟨pre, hpre, RMatch.altR hm⟩
  | cat r1 r2 ih1 ih2 =>
    intro s caps p hp
    simp only [reMatchesR, List.mem_flatMap] at hp
    obtain ⟨q, hq, hpq⟩ := hp
    obtain ⟨pre1, hpre1, hm1⟩ := ih1 s caps q hq
    obtain ⟨pre2, hpre2, hm2⟩ := ih2 q.1 q.2 p hpq
    refine ⟨pre1 ++ pre2, ?_, RMatch.cat hm1 hm2⟩
    rw [hpre1, hpre2, List.append_assoc]
  | star r ihr =>
    intro s caps p hp
    simp only [reMatchesR, List.mem_append, List.mem_flatMap, List.mem_filter,
      List.mem_singleton] at hp
    rcases hp with ⟨q, ⟨hq, _⟩, hpq⟩ | hp
    · obtain ⟨pre1, hpre1, hm1⟩ := ihr s caps q hq
      obtain ⟨pre2, hpre2, hm2⟩ := hd (.star r) q.1 q.2 p hpq
      refine ⟨pre1 ++ pre2, ?_, RMatch.starCons hm1 hm2⟩
      rw [hpre1, hpre2, List.append_assoc]
    · exact ⟨[], by simp [hp], RMatch.starNil⟩
  | group n r ihr =>
    intro s caps p hp
    simp only [reMatchesR, List.mem_map] at hp
    obtain ⟨q, hq, hpq⟩ := hp
    obtain ⟨pre, hpre, hm⟩ := ihr s caps q hq
    refine ⟨pre, ?_, RMatch.group hm⟩
    rw [← hpq]
    exact hpre

/-- Matcher soundness at any fuel. -/
theorem reMatches_sound : ∀ (fuel : Nat) (r : Regex) (s : List Char) (caps : Caps)
    (p : List Char × Caps), p ∈ reMatches fuel r s caps →
    ∃ pre, s = pre ++ p.1 ∧ RMatch r pre := by
  intro fuel
  induction fuel with
  | zero => intro r s caps p hp; simp [reMatches] at hp
  | succ f ih =>
    intro r s caps p hp
    exact reMatchesR_sound (reMatches f) (fun r2 s2 c2 p2 hp2 => ih r2 s2 c2 p2 hp2)
      r s caps p hp

/-- A successful `re.fullmatch` means the whole string is in the
regex's language: matching is anchored at both ends. -/
theorem fullmatchCaps_sound (r : Regex) (ng : Nat) (s : List Char) (caps : Caps)
    (h : fullmatchCaps r ng s = some caps) : RMatch r s := by
  simp only [fullmatchCaps] at h
  cases hfind : (reMatches (s.length + 1) r s (List.replicate ng none)).find?
      (fun p => p.1.isEmpty) with
  | none => rw [hfind] at h; simp at h
  | some p =>
    have hmem := List.mem_of_find?_eq_some hfind
    have hpe := @List.find?_some _ (fun q => q.1.isEmpty) p
      (reMatches (s.length + 1) r s (List.replicate ng none)) hfind
    have hempty : p.1 = [] := List.isEmpty_iff.mp hpe
    obtain ⟨pre, hpre, hm⟩ := reMatches_sound _ _ _ _ _ hmem
    rw [hempty, List.append_nil] at hpre
    rw [hpre]
    exact hm

/-- The star of `.` matches any string greedily: its first backtracking
alternative consumes the whole input. -/
theorem reMatches_star_any (s : List Char) (caps : Caps) :
    ∀ fuel, s.length < fuel →
    ∃ rest, reMatches fuel (.star .any) s caps = ([], caps) :: rest := by
  induction s with
  | nil =>
    intro fuel hf
    cases fuel with
    | zero => omega
    | succ f => exact ⟨[], rfl⟩
  | cons c t ih =>
    intro fuel hf
    cases fuel with
    | zero => omega
    | succ f =>
      obtain ⟨rest, hrest⟩ := ih f (by simp at hf; omega)
      refine ⟨rest ++ [(c :: t, caps)], ?_⟩
      show reMatchesR (reMatches f) (.star .any) (c :: t) caps = _
      simp only [reMatchesR]
      simp [List.filter_cons, hrest]

/-- `re.fullmatch(".*", s)` succeeds for every string `s`. -/
theorem fullmatchCaps_star_any (s : List Char) :
    fullmatchCaps (.star .any) 0 s = some [] := by
  obtain ⟨rest, h⟩ :=
    reMatches_star_any s (List.replicate 0 none) (s.length + 1) (Nat.lt_succ_self _)
  simp only [fullmatchCaps, h]
  rw [@List.find?_cons_of_pos _ (fun p => p.1.isEmpty) ([], List.replicate 0 none)
    rest rfl]
  rfl

/-- Fetching a `user` pattern that is exactly the `login` interpolation
reference yields the (percent-free) escaped identity verbatim. -/
theorem cfgGet_login (sec : RuleSection) (ue pe : List Char)
    (hu : sec.user = some ("%(login)s".toList)) (hne : '%' ∉ ue) :
    cfgGet sec ue pe ("user".toList) = .ok ue := by
  have h0 : cfgGet sec ue pe ("user".toList) =
      interpGo (optionLookup sec ue pe) 10 ("%(login)s".toList) := by
    unfold cfgGet
    rw [show optionLookup sec ue pe ("user".toList) = sec.user from rfl, hu]
  have h2 : interpGo (optionLookup sec ue pe) 10 ("%(login)s".toList) =
      (match (if '%' ∈ ue then interpGo (optionLookup sec ue pe) 9 ue
              else Except.ok ue) with
       | .error e => .error e
       | .ok piece =>
         match interpScan (optionLookup sec ue pe)
             (interpGo (optionLookup sec ue pe) 9) 9 [] with
         | .error e => .error e
         | .ok t => .ok (piece ++ t)) := rfl
  rw [h0, h2, if_neg hne,
    show interpScan (optionLookup sec ue pe) (interpGo (optionLookup sec ue pe) 9) 9
      ([] : List Char) = Except.ok [] from rfl]
  simp

/-- Fetching a `collection` pattern that is exactly the `path`
interpolation reference yields the (percent-free) escaped normalized
path verbatim. -/
theorem cfgGet_path (sec : RuleSection) (ue pe : List Char)
    (hc : sec.collection = some ("%(path)s".toList)) (hne : '%' ∉ pe) :
    cfgGet sec ue pe ("collection".toList) = .ok pe := by
  have h0 : cfgGet sec ue pe ("collection".toList) =
      interpGo (optionLookup sec ue pe) 10 ("%(path)s".toList) := by
    unfold cfgGet
    rw [show optionLookup sec ue pe ("collection".toList) = sec.collection from rfl, hc]
  have h2 : interpGo (optionLookup sec ue pe) 10 ("%(path)s".toList) =
      (match (if '%' ∈ pe then interpGo (optionLookup sec ue pe) 9 pe
              else Except.ok pe) with
       | .error e => .error e
       | .ok piece =>
         match interpScan (optionLookup sec ue pe)
             (interpGo (optionLookup sec ue pe) 9) 8 [] with
         | .error e => .error e
         | .ok t => .ok (piece ++ t)) := rfl
  rw [h0, h2, if_neg hne,
    show interpScan (optionLookup sec ue pe) (interpGo (optionLookup sec ue pe) 9) 8
      ([] : List Char) = Except.ok [] from rfl]
  simp

/-- C2: when the identity pattern has capture groups, the resource
template's positional placeholders are replaced by the regex-escaped
captured texts before compiling and matching.  With identity pattern
`user-(.+)` matching `user-alice` and resource pattern `{0}/.*`, path
`alice/events` matches and `bob/events` does not; and because the
captured text is regex-escaped, a captured `a.c` substituted into `{0}`
matches only the literal path `a.c`, not `abc`. -/
theorem c2_capture_substitution :
    authorized ("user-alice".toList) ("alice/events".toList) ("rw".toList)
        [⟨("s".toList), some ("user-(.+)".toList), some ("{0}/.*".toList),
          some ("rw".toList)⟩]
      = .ok ("rw".toList)
    ∧ authorized ("user-alice".toList) ("bob/events".toList) ("rw".toList)
        [⟨("s".toList), some ("user-(.+)".toList), some ("{0}/.*".toList),
          some ("rw".toList)⟩]
      = .ok []
    ∧ authorized ("user-a.c".toList) ("a.c".toList) ("r".toList)
        [⟨("s".toList), some ("user-(.+)".toList), some ("{0}".toList),
          some ("r".toList)⟩]
      = .ok ("r".toList)
    ∧ authorized ("user-a.c".toList) ("abc".toList) ("r".toList)
        [⟨("s".toList), some ("user-(.+)".toList), some ("{0}".toList),
          some ("r".toList)⟩]
      = .ok [] :=
  ⟨rfl, rfl, rfl, rfl⟩

/-- C9: `authorized` decides identically for the path inputs `cal`,
`/cal`, `cal/` and `/cal/` for every identity, requested permission set
and rule set, because the only path transformation is stripping leading
and trailing separators; the normalization does no case folding and no
dot-segment resolution (witnessed on `CaL/..`, which is left
unchanged). -/
theorem c9_path_normalization (user perms : List Char) (sections : List RuleSection) :
    authorized user ("cal".toList) perms sections =
      authorized user ("/cal".toList) perms sections
    ∧ authorized user ("cal".toList) perms sections =
      authorized user ("cal/".toList) perms sections
    ∧ authorized user ("cal".toList) perms sections =
      authorized user ("/cal/".toList) perms sections
    ∧ strip_path ("CaL/..".toList) = "CaL/..".toList :=
  ⟨rfl, rfl, rfl, rfl⟩

/-- C5 counterexample: a rule set in which no rule's identity and
resource patterns both fully match, yet `authorized` raises instead of
returning the empty permission set.  The only rule's resource template
`{5}` has no corresponding capture group, so the rule matches nothing
(its evaluation raises), and `authorized` propagates the error rather
than returning the deny-by-default empty set. -/
theorem c5_counterexample :
    ruleMatches ("u".toList) ("p".toList)
        ⟨("a".toList), some (".*".toList), some ("{5}".toList), some ("r".toList)⟩
      = .error .formatError
    ∧ authorized ("u".toList) ("p".toList) ("r".toList)
        [⟨("a".toList), some (".*".toList), some ("{5}".toList), some ("r".toList)⟩]
      = .error (.sectionError ("a".toList) .formatError) :=
  ⟨rfl, rfl⟩

/-- C5 (amended): if every rule evaluates without raising and none
matches, `authorized` returns the empty permission set and raises no
error: exhausting the rule set cleanly is deny-by-default, not a
failure. -/
theorem c5_deny_by_default (user path perms : List Char) (sections : List RuleSection)
    (h : ∀ sec ∈ sections, ruleMatches user path sec = .ok false) :
    authorized user path perms sections = .ok [] := by
  unfold authorized
  rw [show sections = sections ++ ([] : List RuleSection) by simp]
  rw [authorizedGo_skip _ _ _ _ _ _ _ (fun s hs => h s hs)]
  rfl

theorem c5_witness :
    authorized ("bob".toList) ("x".toList) ("rw".toList)
      [⟨("a".toList), some ("ali".toList), some (".*".toList), some ("r".toList)⟩]
      = .ok [] :=
  c5_deny_by_default ("bob".toList) ("x".toList) ("rw".toList)
    [⟨("a".toList), some ("ali".toList), some (".*".toList), some ("r".toList)⟩]
    (by intro s hs; rw [List.mem_singleton] at hs; subst hs; rfl)

/-- The permission string granted by the section loop only contains
requested symbols. -/
theorem authorizedGo_subset (user sane ue pe perms : List Char) :
    ∀ (sections : List RuleSection) (g : List Char),
    authorizedGo user sane ue pe perms sections = .ok g → ∀ c ∈ g, c ∈ perms := by
  intro sections
  induction sections with
  | nil =>
    intro g h c hc
    simp only [authorizedGo, Except.ok.injEq] at h
    subst h
    simp at hc
  | cons sec rest ih =>
    intro g h c hc
    simp only [authorizedGo] at h
    cases hev : evalSection user sane ue pe sec with
    | error e => rw [hev] at h; cases h
    | ok b =>
      rw [hev] at h
      cases b with
      | true =>
        cases hperm : cfgGet sec ue pe ("permissions".toList) with
        | error e => rw [hperm] at h; cases h
        | ok p =>
          rw [hperm] at h
          simp only [Except.ok.injEq] at h
          subst h
          exact ((mem_intersect_permissions perms p c).mp hc).1
      | false => exact ih g h c hc

/-- C6: every permission symbol granted by a successful `authorized`
call is a member of the requested permission set; a permission not in
the request is never granted. -/
theorem c6_granted_subset_requested (user path perms : List Char)
    (sections : List RuleSection) (g : List Char)
    (h : authorized user path perms sections = .ok g) :
    ∀ c ∈ g, c ∈ perms :=
  authorizedGo_subset user (strip_path path) (re_escape user)
    (re_escape (strip_path path)) perms sections g h

theorem c6_witness : 'r' ∈ ("rw".toList) :=
  c6_granted_subset_requested ("alice".toList) ("x".toList) ("rw".toList)
    [⟨("a".toList), some (".*".toList), some (".*".toList), some ("r".toList)⟩]
    ("r".toList) rfl 'r' (by decide)

/-- C1 counterexample: rule 1 (0-indexed) is the first rule whose
identity pattern and capture-substituted resource pattern both fully
match (rule 0's resource template `{5}` cannot be instantiated, so rule
0 matches nothing), yet `authorized` raises the error from rule 0
instead of returning the intersection of the request with rule 1's
permissions. -/
theorem c1_counterexample :
    ruleMatches ("u".toList) ("p".toList)
        ⟨("a".toList), some (".*".toList), some ("{5}".toList), some ("r".toList)⟩
      = .error .formatError
    ∧ ruleMatches ("u".toList) ("p".toList)
        ⟨("b".toList), some (".*".toList), some (".*".toList), some ("rw".toList)⟩
      = .ok true
    ∧ authorized ("u".toList) ("p".toList) ("rw".toList)
        [⟨("a".toList), some (".*".toList), some ("{5}".toList), some ("r".toList)⟩,
         ⟨("b".toList), some (".*".toList), some (".*".toList), some ("rw".toList)⟩]
      = .error (.sectionError ("a".toList) .formatError) :=
  ⟨rfl, rfl, rfl⟩

/-- C1 (amended): if every rule before rule i evaluates without error
and without matching, rule i matches, and rule i's `permissions` value
is fetched successfully as `p`, then `authorized` returns exactly the
intersection of the requested permissions with `p`, whatever rules
follow rule i: evaluation stops at the first matching rule, even if a
later rule would also match or grant broader permissions. -/
theorem c1_first_match (user path perms p : List Char) (pre : List RuleSection)
    (sec : RuleSection)
    (hpre : ∀ s ∈ pre, ruleMatches user path s = .ok false)
    (hsec : ruleMatches user path sec = .ok true)
    (hperm : cfgGet sec (re_escape user) (re_escape (strip_path path))
        ("permissions".toList) = .ok p) :
    ∀ tail : List RuleSection,
      authorized user path perms (pre ++ sec :: tail) =
        .ok (intersect_permissions perms p) := by
  intro tail
  unfold authorized
  rw [authorizedGo_skip _ _ _ _ _ _ _ (fun s hs => hpre s hs)]
  have hsec2 : evalSection user (strip_path path) (re_escape user)
      (re_escape (strip_path path)) sec = .ok true := hsec
  simp only [authorizedGo, hsec2, hperm]

theorem c1_first_match_witness :
    authorized ("alice".toList) ("cal".toList) ("rw".toList)
      ([⟨("n".toList), some ("bob".toList), some (".*".toList), some ("rw".toList)⟩] ++
        ⟨("m".toList), some (".*".toList), some (".*".toList), some ("r".toList)⟩ ::
        [⟨("z".toList), some (".*".toList), some (".*".toList), some ("w".toList)⟩]) =
      .ok ("r".toList) :=
  c1_first_match ("alice".toList) ("cal".toList) ("rw".toList) ("r".toList)
    [⟨("n".toList), some ("bob".toList), some (".*".toList), some ("rw".toList)⟩]
    ⟨("m".toList), some (".*".toList), some (".*".toList), some ("r".toList)⟩
    (by intro s hs; rw [List.mem_singleton] at hs; subst hs; rfl) rfl rfl
    [⟨("z".toList), some (".*".toList), some (".*".toList), some ("w".toList)⟩]

/-- C4: when a reached rule's identity pattern fully matches but its
resource-pattern half is malformed (the `collection` fetch, the
placeholder formatting with the escaped capture groups, or the
compilation of the formatted pattern raises), `authorized` fails with
the `RuntimeError` naming the offending section; the malformed rule is
never silently skipped. -/
theorem c4_malformed_rule_error (user path perms up cp : List Char)
    (pre tail : List RuleSection) (sec : RuleSection) (r : Regex) (ng : Nat)
    (caps : Caps) (e : EvalExn)
    (hpre : ∀ s ∈ pre, ruleMatches user path s = .ok false)
    (hup : cfgGet sec (re_escape user) (re_escape (strip_path path))
        ("user".toList) = .ok up)
    (hcp : cfgGet sec (re_escape user) (re_escape (strip_path path))
        ("collection".toList) = .ok cp)
    (hcompile : compileRx up = .ok (r, ng))
    (hmatch : fullmatchCaps r ng user = some caps)
    (hbad : evalCollection (strip_path path) cp caps = .error e) :
    authorized user path perms (pre ++ sec :: tail) =
      .error (.sectionError sec.name e) := by
  unfold authorized
  rw [authorizedGo_skip _ _ _ _ _ _ _ (fun s hs => hpre s hs)]
  have hev : evalSection user (strip_path path) (re_escape user)
      (re_escape (strip_path path)) sec = .error e := by
    unfold evalSection
    simp only [hup, hcp, hcompile, hmatch, hbad]
  simp only [authorizedGo, hev]

theorem c4_witness :
    authorized ("alice".toList) ("x".toList) ("r".toList)
      ([] ++ ⟨("bad".toList), some ("(.+)".toList), some ("{1}".toList),
        some ("r".toList)⟩ :: []) =
      .error (.sectionError ("bad".toList) .formatError) :=
  c4_malformed_rule_error ("alice".toList) ("x".toList) ("r".toList)
    ("(.+)".toList) ("{1}".toList) [] []
    ⟨("bad".toList), some ("(.+)".toList), some ("{1}".toList), some ("r".toList)⟩
    (.cat (.group 0 (.cat (.cat .any (.star .any)) .eps)) .eps) 1
    [some ("alice".toList)] .formatError
    (by intro s hs; simp at hs) rfl rfl rfl rfl rfl

/-- C7: a section missing a required key makes `authorized` fail with
an error naming the section and the missing key, whichever key is
absent for the rule being evaluated.  A missing `user` or `collection`
key raises inside the try block and is wrapped into the section-naming
`RuntimeError` (its cause is the `NoOptionError` naming section and
key); the `permissions` key of a rule whose identity and resource
patterns both match is fetched outside the try block, so its
`NoOptionError` (naming section and key) propagates uncaught. -/
theorem c7_missing_key_error :
    (∀ (user path perms : List Char) (pre tail : List RuleSection) (name : List Char)
       (cp pp : Option (List Char)),
       (∀ s ∈ pre, ruleMatches user path s = .ok false) →
       authorized user path perms (pre ++ ⟨name, none, cp, pp⟩ :: tail) =
         .error (.sectionError name (.noOption name ("user".toList))))
    ∧ (∀ (user path perms up : List Char) (pre tail : List RuleSection)
        (name : List Char) (uo pp : Option (List Char)),
        (∀ s ∈ pre, ruleMatches user path s = .ok false) →
        cfgGet ⟨name, uo, none, pp⟩ (re_escape user) (re_escape (strip_path path))
          ("user".toList) = .ok up →
        authorized user path perms (pre ++ ⟨name, uo, none, pp⟩ :: tail) =
          .error (.sectionError name (.noOption name ("collection".toList))))
    ∧ (∀ (user path perms : List Char) (pre tail : List RuleSection)
        (name : List Char) (uo co : Option (List Char)),
        (∀ s ∈ pre, ruleMatches user path s = .ok false) →
        ruleMatches user path ⟨name, uo, co, none⟩ = .ok true →
        authorized user path perms (pre ++ ⟨name, uo, co, none⟩ :: tail) =
          .error (.uncaughtError (.noOption name ("permissions".toList)))) := by
  refine ⟨?_, ?_, ?_⟩
  · intro user path perms pre tail name cp pp hpre
    unfold authorized
    rw [authorizedGo_skip _ _ _ _ _ _ _ (fun s hs => hpre s hs)]
    have hev : evalSection user (strip_path path) (re_escape user)
        (re_escape (strip_path path)) ⟨name, none, cp, pp⟩ =
        .error (.noOption name ("user".toList)) := rfl
    simp only [authorizedGo, hev]
  · intro user path perms up pre tail name uo pp hpre hup
    unfold authorized
    rw [authorizedGo_skip _ _ _ _ _ _ _ (fun s hs => hpre s hs)]
    have hev : evalSection user (strip_path path) (re_escape user)
        (re_escape (strip_path path)) ⟨name, uo, none, pp⟩ =
        .error (.noOption name ("collection".toList)) := by
      unfold evalSection
      simp only [hup]
      rfl
    simp only [authorizedGo, hev]
  · intro user path perms pre tail name uo co hpre hmatch
    unfold authorized
    rw [authorizedGo_skip _ _ _ _ _ _ _ (fun s hs => hpre s hs)]
    have hev : evalSection user (strip_path path) (re_escape user)
        (re_escape (strip_path path)) ⟨name, uo, co, none⟩ = .ok true := hmatch
    simp only [authorizedGo, hev]
    rfl

theorem c7_witness :
    authorized ("u".toList) ("p".toList) ("r".toList)
      ([] ++ ⟨("a".toList), none, some (".*".toList), some ("r".toList)⟩ :: []) =
      .error (.sectionError ("a".toList) (.noOption ("a".toList) ("user".toList)))
    ∧ authorized ("u".toList) ("p".toList) ("r".toList)
      ([] ++ ⟨("b".toList), some (".*".toList), none, some ("r".toList)⟩ :: []) =
      .error (.sectionError ("b".toList) (.noOption ("b".toList) ("collection".toList)))
    ∧ authorized ("u".toList) ("p".toList) ("r".toList)
      ([] ++ ⟨("c".toList), some (".*".toList), some (".*".toList), none⟩ :: []) =
      .error (.uncaughtError (.noOption ("c".toList) ("permissions".toList))) :=
  ⟨c7_missing_key_error.1 ("u".toList) ("p".toList) ("r".toList) [] [] ("a".toList)
      (some (".*".toList)) (some ("r".toList)) (by intro s hs; simp at hs),
   c7_missing_key_error.2.1 ("u".toList) ("p".toList) ("r".toList) (".*".toList) [] []
      ("b".toList) (some (".*".toList)) (some ("r".toList))
      (by intro s hs; simp at hs) rfl,
   c7_missing_key_error.2.2 ("u".toList) ("p".toList) ("r".toList) [] [] ("c".toList)
      (some (".*".toList)) (some (".*".toList)) (by intro s hs; simp at hs) rfl⟩

/-- C3: the `login` and `path` interpolation variables expand to the
regex-escaped identity and normalized path, and a compiled escaped
string fully matches exactly the original string.  Hence an identity
(or path) containing regex metacharacters is matched purely as literal
text by any rule referencing these variables and can never make such a
rule match a different identity or path.  (The percent hypotheses
exclude identities that would make ConfigParser interpolation itself
raise, since `%` starts an interpolation escape.) -/
theorem c3_regex_injection_resistance (u sane s name perm : List Char)
    (hu : '%' ∉ u) (hsane : '%' ∉ sane) :
    cfgGet ⟨name, some ("%(login)s".toList), some ("%(path)s".toList), some perm⟩
        (re_escape u) (re_escape sane) ("user".toList) = .ok (re_escape u)
    ∧ cfgGet ⟨name, some ("%(login)s".toList), some ("%(path)s".toList), some perm⟩
        (re_escape u) (re_escape sane) ("collection".toList) = .ok (re_escape sane)
    ∧ (re_fullmatchB (re_escape u) s = true ↔ s = u)
    ∧ (re_fullmatchB (re_escape sane) s = true ↔ s = sane) := by
  have hu2 : '%' ∉ re_escape u := fun h => hu ((percent_mem_escape u).mp h)
  have hs2 : '%' ∉ re_escape sane := fun h => hsane ((percent_mem_escape sane).mp h)
  exact ⟨cfgGet_login _ _ _ rfl hu2, cfgGet_path _ _ _ rfl hs2,
    re_fullmatchB_escape u s, re_fullmatchB_escape sane s⟩

theorem c3_witness :
    cfgGet ⟨("n".toList), some ("%(login)s".toList), some ("%(path)s".toList),
        some ("r".toList)⟩
      (re_escape ("a.*(b|c)".toList)) (re_escape ("x|y".toList)) ("user".toList)
      = .ok (re_escape ("a.*(b|c)".toList))
    ∧ cfgGet ⟨("n".toList), some ("%(login)s".toList), some ("%(path)s".toList),
        some ("r".toList)⟩
      (re_escape ("a.*(b|c)".toList)) (re_escape ("x|y".toList)) ("collection".toList)
      = .ok (re_escape ("x|y".toList))
    ∧ (re_fullmatchB (re_escape ("a.*(b|c)".toList)) ("aXbc".toList) = true ↔
        ("aXbc".toList) = ("a.*(b|c)".toList))
    ∧ (re_fullmatchB (re_escape ("x|y".toList)) ("aXbc".toList) = true ↔
        ("aXbc".toList) = ("x|y".toList)) :=
  c3_regex_injection_resistance ("a.*(b|c)".toList) ("x|y".toList) ("aXbc".toList)
    ("n".toList) ("r".toList) (by decide) (by decide)

/-- C8: matching of compiled patterns is anchored at both ends: a
successful full match means the entire string belongs to the pattern's
language.  In particular, a pattern matching only a proper prefix does
not match the rule: `ali` is a prefix of `alice`, `ali` is in the
language of the pattern `ali`, and yet the rule with identity pattern
`ali` does not match identity `alice`, so `authorized` falls through to
deny-by-default. -/
theorem c8_fullstring_matching :
    (∀ (pat : List Char) (r : Regex) (ng : Nat) (s : List Char) (caps : Caps),
       compileRx pat = .ok (r, ng) → fullmatchCaps r ng s = some caps → RMatch r s)
    ∧ authorized ("alice".toList) ("x".toList) ("r".toList)
        [⟨("a".toList), some ("ali".toList), some (".*".toList), some ("r".toList)⟩]
      = .ok []
    ∧ RMatch (litCat ("ali".toList)) ("ali".toList)
    ∧ ("ali".toList).isPrefixOf ("alice".toList) = true := by
  refine ⟨fun pat r ng s caps _ hm => fullmatchCaps_sound r ng s caps hm, rfl, ?_, rfl⟩
  show RMatch (.cat (.char 'a') (.cat (.char 'l') (.cat (.char 'i') .eps)))
    ['a', 'l', 'i']
  have h1 : (['a', 'l', 'i'] : List Char) = ['a'] ++ (['l'] ++ (['i'] ++ [])) := rfl
  rw [h1]
  exact RMatch.cat (RMatch.char 'a')
    (RMatch.cat (RMatch.char 'l') (RMatch.cat (RMatch.char 'i') RMatch.eps))

theorem c8_witness :
    RMatch (.cat (.char 'a') (.cat (.char 'b') .eps)) ("ab".toList) :=
  c8_fullstring_matching.1 ("ab".toList) (.cat (.char 'a') (.cat (.char 'b') .eps)) 0
    ("ab".toList) [] rfl rfl

/-- The compiled form of the pattern `.*` fully matches every string. -/
theorem fullmatchCaps_star_any_eps (s : List Char) :
    fullmatchCaps (.cat (.star .any) .eps) 0 s = some [] := by
  obtain ⟨rest, h⟩ :=
    reMatches_star_any s (List.replicate 0 none) (s.length + 1) (Nat.lt_succ_self _)
  have hflat : ∀ l : List (List Char × Caps), l.flatMap (fun p => [(p.1, p.2)]) = l := by
    intro l
    induction l with
    | nil => rfl
    | cons x xs ih => simp [List.flatMap_cons, ih]
  have hstep : fullmatchCaps (.cat (.star .any) .eps) 0 s =
      (((reMatches (s.length + 1) (.star .any) s (List.replicate 0 none)).flatMap
          (fun p => [(p.1, p.2)])).find? (fun p => p.1.isEmpty)).map (fun p => p.2) := rfl
  rw [hstep, h, hflat]
  rw [@List.find?_cons_of_pos _ (fun p => p.1.isEmpty) ([], List.replicate 0 none)
    rest rfl]
  rfl

/-- A section with identity pattern `.*` (zero capture groups) and
resource template `a{2}` raises a format error for every identity. -/
theorem evalSection_quantifier_brace (user sane ue pe name perm : List Char) :
    evalSection user sane ue pe
      ⟨name, some (".*".toList), some ("a{2}".toList), some perm⟩ =
      .error .formatError := by
  unfold evalSection
  simp only [show cfgGet ⟨name, some (".*".toList), some ("a{2}".toList), some perm⟩
      ue pe ("user".toList) = Except.ok (".*".toList) from rfl,
    show cfgGet ⟨name, some (".*".toList), some ("a{2}".toList), some perm⟩
      ue pe ("collection".toList) = Except.ok ("a{2}".toList) from rfl,
    show compileRx (".*".toList) = Except.ok (Regex.cat (Regex.star Regex.any)
      Regex.eps, 0) from rfl,
    fullmatchCaps_star_any_eps user]
  rfl

/-- C10: the resource template always goes through positional
formatting once the identity matched, even with zero capture groups;
a brace construct such as the regex quantifier `a{2}` is therefore
consumed by `str.format` — with zero capture groups the placeholder
index 2 is out of range — and the evaluation fails with the
section-naming error for every request whose identity matches the
rule's `.*` pattern (that is, every request), instead of `a{2}` ever
being matched as a regex quantifier. -/
theorem c10_zero_groups_format_error (user path perms name perm : List Char) :
    authorized user path perms
      [⟨name, some (".*".toList), some ("a{2}".toList), some perm⟩] =
      .error (.sectionError name .formatError) := by
  unfold authorized
  simp only [authorizedGo, evalSection_quantifier_brace]
